import Mathlib

/-!
Verification development for the GLL parser runtime in `src/runtime.rs`.

The runtime drives parse "threads" (pending continuations paired with the
remaining input range) through a scheduler (`Threads`), a graph-structured
stack (`gss`) and a memoizer, via the driver operations
`Runtime::spawn`, `Runtime::call`, `Runtime::ret`, `Runtime::save`,
`Runtime::take_saved`, and the entry point `Runtime::parse`.

The `Range`, `Node` and `Parser` types come from the external `grammer`
crate (not part of this repository's sources); they are modelled from the
specification: a `Range` is a half-open interval `[start, stop)` over one
input, ordered lexicographically on `(start, stop)`, with `split_at`,
`join`, `contains`, `len` and `frontiers`; a forest `Node` is a
`(kind, range)` pair.  Rust's `BTreeSet` is modelled as a duplicate-free
list with decidable membership (insertion returns whether the element was
new; the set's maximum is computed explicitly), `BinaryHeap` as a list
whose pop removes a maximal element, and `HashMap<K, SET>` with
`entry(k).or_default()` as a total function `K → List _` defaulting to
`[]`.  `x.unwrap()` on an `Option` is modelled by `Option.getD` with a
junk default where the surrounding invariant guarantees `some` (and by
`Option`-valued results where the abort behaviour itself is specified,
as for `save`/`take_saved` and `FlattenIter::new`).
-/

/-- Modelled from the spec (external `grammer::input::Range`): a half-open
interval over a specific input; the provenance tag is dropped. -/
structure Range where
  start : Nat
  stop : Nat
deriving DecidableEq

/-- Modelled from the spec: `len` of a half-open interval. -/
def Range.len (r : Range) : Nat := r.stop - r.start

/-- Modelled from the spec: `split_at(len)` yields the prefix and suffix of
the range at offset `len` from its start. -/
def Range.split_at (r : Range) (len : Nat) : Range × Range :=
  (⟨r.start, r.start + len⟩, ⟨r.start + len, r.stop⟩)

/-- Modelled from the spec: `join(other)` succeeds iff `self.stop =
other.start`, producing the concatenated range. -/
def Range.join (r s : Range) : Option Range :=
  if r.stop = s.start then some ⟨r.start, s.stop⟩ else none

/-- Rust's `a.join(b).unwrap()`: totalised with a junk default; every use
in the runtime is guarded by the adjacency invariant `r.stop = s.start`. -/
def Range.join_unwrap (r s : Range) : Range :=
  (r.join s).getD ⟨0, 0⟩

/-- Modelled from the spec: membership of a point in the half-open
interval, returning `some` on success (the runtime only tests
`is_some`). -/
def Range.contains (r : Range) (i : Nat) : Option Nat :=
  if r.start ≤ i ∧ i < r.stop then some i else none

/-- Modelled from the spec: `frontiers()` returns the two empty ranges at
the interval's endpoints. -/
def Range.frontiers (r : Range) : Range × Range :=
  (⟨r.start, r.start⟩, ⟨r.stop, r.stop⟩)

/-- Modelled from the spec (external forest node): a `(kind, range)`
pair. -/
structure Node (K : Type) where
  kind : K
  range : Range
deriving DecidableEq

/-- A pending continuation: next code label, optional saved forest node,
and the span of input already consumed on this parse path
(`src/runtime.rs` lines 270-278). -/
structure Continuation (C K : Type) where
  code : C
  saved : Option (Node K)
  result : Range
deriving DecidableEq

/-- A callee (either a code label or a whole continuation) applied to an
input range (`src/runtime.rs` lines 314-318). -/
structure Call (T : Type) where
  callee : T
  range : Range
deriving DecidableEq

/-- Three-way comparison from a linear order, mirroring Rust's
`Ord::cmp`. -/
def cmpOf {α : Type} [LinearOrder α] (a b : α) : Ordering :=
  if a < b then .lt else if a = b then .eq else .gt

/-- Rust's derived `Ord` on `Option<T>`: `None` sorts before `Some`. -/
def optCmp {α : Type} (f : α → α → Ordering) : Option α → Option α → Ordering
  | none, none => .eq
  | none, some _ => .lt
  | some _, none => .gt
  | some a, some b => f a b

/-- Modelled from the spec: `Range` is ordered lexicographically on
`(start, stop)`. -/
def rangeCmp (a b : Range) : Ordering :=
  (cmpOf a.start b.start).then (cmpOf a.stop b.stop)

/-- Modelled from the spec: forest nodes are ordered by `(kind, range)`. -/
def nodeCmp {K : Type} [LinearOrder K] (a b : Node K) : Ordering :=
  (cmpOf a.kind b.kind).then (rangeCmp a.range b.range)

/-- `Ord for Continuation`: lexicographic on `(code, saved, result)`
(`src/runtime.rs` lines 302-309). -/
def contCmp {C K : Type} [LinearOrder C] [LinearOrder K]
    (a b : Continuation C K) : Ordering :=
  (cmpOf a.code b.code).then
    ((optCmp nodeCmp a.saved b.saved).then (rangeCmp a.result b.result))

/-- `Ord for Call`: `(Reverse(self.range), &self.callee)` lexicographically
(`src/runtime.rs` lines 338-342); the reversed first component is the
swapped-argument range comparison. -/
def callCmp {C K : Type} [LinearOrder C] [LinearOrder K]
    (a b : Call (Continuation C K)) : Ordering :=
  (rangeCmp b.range a.range).then (contCmp a.callee b.callee)

/-- A maximal element of a list under a three-way comparison: the model of
`BinaryHeap::pop`'s choice and of `BTreeSet::iter().rev().next()`. -/
def maxBy {α : Type} (f : α → α → Ordering) : List α → Option α
  | [] => none
  | x :: xs => some (xs.foldl (fun acc y => if f acc y = .lt then y else acc) x)

/-- The scheduler's two collections (`src/runtime.rs` lines 230-233):
`queue` models the `BinaryHeap`, `seen` the `BTreeSet` of calls ever
enqueued and not yet garbage-collected. -/
structure Threads (C K : Type) where
  queue : List (Call (Continuation C K))
  seen : List (Call (Continuation C K))

variable {C K : Type} [LinearOrder C] [LinearOrder K]

/-- `Threads::spawn` (`src/runtime.rs` lines 239-247): insert the thread
into `seen`; push it onto `queue` only if the insertion was new. -/
def Threads.spawn (th : Threads C K) (next : Continuation C K) (range : Range) :
    Threads C K :=
  if (⟨next, range⟩ : Call (Continuation C K)) ∈ th.seen then th
  else { queue := ⟨next, range⟩ :: th.queue, seen := ⟨next, range⟩ :: th.seen }

/-- The garbage-collection loop inside `Threads::steal` (`src/runtime.rs`
lines 250-261), with explicit structural fuel: repeatedly take the
greatest remaining element of `seen` (`iter().rev().next()`) and remove it
while the stolen range does not contain its start. -/
def gcSeenAux (r : Range) : Nat → List (Call (Continuation C K)) →
    List (Call (Continuation C K))
  | 0, seen => seen
  | fuel + 1, seen =>
    match maxBy callCmp seen with
    | none => seen
    | some old =>
      if (r.contains old.range.start).isSome then seen
      else gcSeenAux r fuel (seen.erase old)

/-- The garbage-collection loop with its canonical fuel: each iteration
erases one member of `seen`, so `seen.length` rounds always reach the
loop's exit condition. -/
def gcSeen (r : Range) (seen : List (Call (Continuation C K))) :
    List (Call (Continuation C K)) :=
  gcSeenAux r seen.length seen

/-- `Threads::steal` (`src/runtime.rs` lines 248-267): pop a maximal
element of `queue`; on success garbage-collect `seen`; on an empty queue
clear `seen` and return `none`. -/
def Threads.steal (th : Threads C K) :
    Option (Call (Continuation C K)) × Threads C K :=
  match maxBy callCmp th.queue with
  | none => (none, { queue := th.queue, seen := [] })
  | some t => (some t, { queue := th.queue.erase t, seen := gcSeen t.range th.seen })

/-- Pointwise update of a total-function model of a `HashMap` with
defaulting entries. -/
def updateFn {α β : Type} [DecidableEq α] (f : α → β) (a : α) (b : β) : α → β :=
  fun x => if x = a then b else f x

/-- The shared state of one parse (`src/runtime.rs` lines 17-21): the
scheduler, the graph-structured stack `returns : Call<C> →
BTreeSet<Continuation>`, and the memoizer `lengths : Call<C> →
BTreeSet<usize>`. -/
structure RuntimeState (C K : Type) where
  threads : Threads C K
  gss : Call C → List (Continuation C K)
  memoizer : Call C → List Nat

/-- The per-thread driver view (`src/runtime.rs` lines 10-15): shared
state, current code label, the thread's saved slot, and the parser's
current `result` and `remaining` ranges. -/
structure Runtime (C K : Type) where
  state : RuntimeState C K
  current : C
  saved : Option (Node K)
  result : Range
  remaining : Range

/-- `Runtime::spawn` (`src/runtime.rs` lines 151-160): enqueue a thread
continuing at `next` with the current `saved`, `result` and `remaining`. -/
def Runtime.spawn (rt : Runtime C K) (next : C) : Runtime C K :=
  { rt with state :=
    { rt.state with threads := rt.state.threads.spawn ⟨next, rt.saved, rt.result⟩ rt.remaining } }

/-- `Runtime::call` (`src/runtime.rs` lines 162-198).  Let `call =
(callee, remaining)` and `nxt = (next, saved, result)`.  If `nxt` is
already registered in `returns[call]`, do nothing.  Otherwise register it;
if the set already held another continuation, replay every memoized length
by spawning `nxt` extended with the accepted prefix of that length; else
spawn the callee fresh from its entry. -/
def Runtime.call (rt : Runtime C K) (callee next : C) : Runtime C K :=
  if (⟨next, rt.saved, rt.result⟩ : Continuation C K) ∈ rt.state.gss ⟨callee, rt.remaining⟩ then
    rt
  else
    if ((⟨next, rt.saved, rt.result⟩ : Continuation C K) ::
        rt.state.gss ⟨callee, rt.remaining⟩).length > 1 then
      { rt with state :=
        { threads := (rt.state.memoizer ⟨callee, rt.remaining⟩).foldl
            (fun th len => th.spawn
              ⟨next, rt.saved, rt.result.join_unwrap (rt.remaining.split_at len).1⟩
              (rt.remaining.split_at len).2)
            rt.state.threads
          gss := updateFn rt.state.gss ⟨callee, rt.remaining⟩
            (⟨next, rt.saved, rt.result⟩ :: rt.state.gss ⟨callee, rt.remaining⟩)
          memoizer := rt.state.memoizer } }
    else
      { rt with state :=
        { threads := rt.state.threads.spawn
            ⟨callee, none, (rt.remaining.frontiers).1⟩ rt.remaining
          gss := updateFn rt.state.gss ⟨callee, rt.remaining⟩
            (⟨next, rt.saved, rt.result⟩ :: rt.state.gss ⟨callee, rt.remaining⟩)
          memoizer := rt.state.memoizer } }

/-- `Runtime::ret` (`src/runtime.rs` lines 200-227).  Form `call =
(enclosing_fn(current), result ⋈ remaining)`; insert the current result's
length into the memoizer entry for `call`; if the length is new, spawn
every continuation registered in `returns[call]`, each extended by the
current result, with the current `remaining`.  `enclosing_fn` is the
`CodeLabel` trait method, passed explicitly. -/
def Runtime.ret (encl : C → C) (rt : Runtime C K) : Runtime C K :=
  if rt.result.len ∈ rt.state.memoizer ⟨encl rt.current, rt.result.join_unwrap rt.remaining⟩ then
    rt
  else
    { rt with state :=
      { threads := (rt.state.gss ⟨encl rt.current, rt.result.join_unwrap rt.remaining⟩).foldl
          (fun th nx => th.spawn ⟨nx.code, nx.saved, nx.result.join_unwrap rt.result⟩
            rt.remaining)
          rt.state.threads
        gss := rt.state.gss
        memoizer := updateFn rt.state.memoizer
          ⟨encl rt.current, rt.result.join_unwrap rt.remaining⟩
          (rt.result.len ::
            rt.state.memoizer ⟨encl rt.current, rt.result.join_unwrap rt.remaining⟩) } }

/-- `Runtime::save` (`src/runtime.rs` lines 129-135): stage the forest
node `(kind, result)` in the `saved` slot, clearing the accumulated result
(modelled from the spec: the external `Parser::take_result` returns the
current result, leaving the empty range at its end point).  The
`assert_eq!(old_saved, None)` abort is modelled as `none`. -/
def Runtime.save (rt : Runtime C K) (kind : K) : Option (Runtime C K) :=
  match rt.saved with
  | none => some { rt with
      saved := some ⟨kind, rt.result⟩
      result := ⟨rt.result.stop, rt.result.stop⟩ }
  | some _ => none

/-- `Runtime::take_saved` (`src/runtime.rs` lines 137-139): remove and
return the saved node; the `unwrap` abort on an empty slot is modelled as
`none`. -/
def Runtime.take_saved (rt : Runtime C K) : Option (Node K × Runtime C K) :=
  match rt.saved with
  | some n => some (n, { rt with saved := none })
  | none => none

/-- `Memoizer::longest_result` (`src/runtime.rs` lines 384-397): the
memoized lengths are iterated in ascending order and mapped to prefixes of
`call.range`; `rev().next()` of that sequence is the prefix of the
greatest recorded length. -/
def longest_result (memo : Call C → List Nat) (call : Call C) : Option Range :=
  (maxBy cmpOf (memo call)).map fun len => (call.range.split_at len).1

/-- The initial shared state of `Runtime::parse` (`src/runtime.rs` lines
40-61): empty structures, with one thread spawned at the entry label with
an empty result at the input's start. -/
def initState (entry : C) (r0 : Range) : RuntimeState C K :=
  { threads := Threads.spawn ⟨[], []⟩ ⟨entry, none, (r0.frontiers).1⟩ r0
    gss := fun _ => []
    memoizer := fun _ => [] }

/-- The steal/dispatch loop of `Runtime::parse` (`src/runtime.rs` lines
63-80), with explicit fuel (`none` = the loop has not drained within
`fuel` iterations).  A stolen thread `(Continuation, range)` is dispatched
to its label's step function, which receives the driver view with that
thread's `saved`, `result` and `remaining`. -/
def runLoop (stepF : C → Runtime C K → Runtime C K) :
    Nat → RuntimeState C K → Option (RuntimeState C K)
  | 0, _ => none
  | fuel + 1, st =>
    match st.threads.steal with
    | (none, th) => some { st with threads := th }
    | (some t, th) =>
      runLoop stepF fuel
        (stepF t.callee.code
          { state := { st with threads := th }
            current := t.callee.code
            saved := t.callee.saved
            result := t.callee.result
            remaining := t.range }).state

/-- `Runtime::parse` (`src/runtime.rs` lines 29-90) over an input of
length `inputLen`: run the loop; once the queue drains, look up the
longest memoized result for the entry call and wrap it in a root node of
the requested kind (`none` = parse failure).  The outer `Option` is the
loop fuel. -/
def parse (stepF : C → Runtime C K → Runtime C K) (entry : C) (kind : K)
    (inputLen fuel : Nat) : Option (Option (Node K)) :=
  (runLoop stepF fuel (initState entry ⟨0, inputLen⟩)).map fun st =>
    (longest_result st.memoizer ⟨entry, ⟨0, inputLen⟩⟩).map fun range =>
      ⟨kind, range⟩

/-- Key of a `Range` in the lexicographic order on `(start, stop)`. -/
def rangeKey (r : Range) : Nat ×ₗ Nat := toLex (r.start, r.stop)

/-- Key of a forest node in the lexicographic order on `(kind, range)`. -/
def nodeKey [LinearOrder K] (n : Node K) : K ×ₗ (Nat ×ₗ Nat) :=
  toLex (n.kind, rangeKey n.range)

/-- Key of an optional value: `None` sorts below every `Some`. -/
def optKey {α κ : Type} (k : α → κ) : Option α → WithBot κ
  | none => ⊥
  | some a => (k a : κ)

/-- Key of an optional saved node: `None` sorts below every `Some`. -/
def savedKey [LinearOrder K] : Option (Node K) → WithBot (K ×ₗ (Nat ×ₗ Nat)) :=
  optKey nodeKey

/-- Key of a continuation in the order `(code, saved, result)`. -/
def contKey [LinearOrder C] [LinearOrder K] (c : Continuation C K) :
    C ×ₗ ((WithBot (K ×ₗ (Nat ×ₗ Nat))) ×ₗ (Nat ×ₗ Nat)) :=
  toLex (c.code, toLex (savedKey c.saved, rangeKey c.result))

/-- Key of a pending thread in the scheduler's priority order
`(Reverse(range), callee)`: the order dual reverses the range
component. -/
def callKey [LinearOrder C] [LinearOrder K] (t : Call (Continuation C K)) :
    (Nat ×ₗ Nat)ᵒᵈ ×ₗ (C ×ₗ ((WithBot (K ×ₗ (Nat ×ₗ Nat))) ×ₗ (Nat ×ₗ Nat))) :=
  toLex (OrderDual.toDual (rangeKey t.range), contKey t.callee)

/-- A three-way comparison agrees with a key function into a linear
order. -/
def CmpKey {α κ : Type} [LinearOrder κ] (f : α → α → Ordering) (k : α → κ) : Prop :=
  ∀ a b, (f a b = .lt ↔ k a < k b) ∧ (f a b = .eq ↔ k a = k b)

/-- The per-thread invariant of claim C8: the end of the continuation's
consumed result equals the start of the thread's remaining range. -/
def pairOk (p : Call (Continuation C K)) : Prop :=
  p.callee.result.stop = p.range.start

/-- The GSS invariant supporting claim C8: every continuation registered
for a call consumed exactly up to the call's start. -/
def gssOk (st : RuntimeState C K) : Prop :=
  ∀ c nx, nx ∈ st.gss c → nx.result.stop = c.range.start

/-- Spawning a list of threads in order (the effect of one step's calls to
`Threads::spawn`). -/
def spawnList (l : List (Call (Continuation C K))) (th : Threads C K) : Threads C K :=
  l.foldl (fun th p => th.spawn p.callee p.range) th

/-- A step function whose only effect on the scheduler is to spawn threads
drawn from the finite universe `U` (the shape of generated `CodeStep`
code: every mutation of `threads` goes through `Threads::spawn`). -/
def SpawnsFrom (U : Finset (Call (Continuation C K)))
    (stepF : C → Runtime C K → Runtime C K) : Prop :=
  ∀ code rt, ∃ l : List (Call (Continuation C K)),
    (∀ p ∈ l, p ∈ U) ∧ (stepF code rt).state.threads = spawnList l rt.state.threads

/-- Every range of a pair in `U` contains the start point of every range
of a pair in `U`; under this condition the `seen` garbage collection
removes nothing. -/
def StartsContained (U : Finset (Call (Continuation C K))) : Prop :=
  ∀ p ∈ U, ∀ q ∈ U, (Range.contains p.range q.range.start).isSome = true

/-- The measure for the driver loop: pairs of `U` not yet recorded in
`seen`, plus the pending queue length. -/
def threadMeasure (U : Finset (Call (Continuation C K)))
    (th : Threads C K) : Nat :=
  (U.card - th.seen.toFinset.card) + th.queue.length

/-- The scheduler invariant for the termination argument: `seen` is
duplicate-free, drawn from `U`, and every queued pair is recorded in
`seen`. -/
def ThreadsInv (U : Finset (Call (Continuation C K)))
    (th : Threads C K) : Prop :=
  th.seen.Nodup ∧ (∀ x ∈ th.seen, x ∈ U) ∧ (∀ x ∈ th.queue, x ∈ th.seen)

/-- The entry thread of a parse (spawned at `src/runtime.rs` lines
53-61). -/
def entryPair (entry : C) (r0 : Range) : Call (Continuation C K) :=
  ⟨⟨entry, none, (r0.frontiers).1⟩, r0⟩

/-- A concrete thread at the empty range of an empty input, entry label
`0`: the entry thread of `parse` on input length `0`. -/
def cex0 : Call (Continuation Nat Nat) := ⟨⟨0, none, ⟨0, 0⟩⟩, ⟨0, 0⟩⟩

/-- A concrete thread at the empty range of an empty input, label `1`. -/
def cex1 : Call (Continuation Nat Nat) := ⟨⟨1, none, ⟨0, 0⟩⟩, ⟨0, 0⟩⟩

/-- A legal `CodeStep`-style step table: the step of label `0` calls
`Runtime::spawn` with label `1`, and the step of label `1` calls
`Runtime::spawn` with label `0` (each step performs exactly one driver
operation). -/
def cycleStep : Nat → Runtime Nat Nat → Runtime Nat Nat :=
  fun code rt => rt.spawn (1 - code)

/-- The parse state holding exactly the pending thread `cex0`. -/
def cexState0 : RuntimeState Nat Nat := ⟨⟨[cex0], [cex0]⟩, fun _ => [], fun _ => []⟩

/-- The parse state holding exactly the pending thread `cex1`. -/
def cexState1 : RuntimeState Nat Nat := ⟨⟨[cex1], [cex1]⟩, fun _ => [], fun _ => []⟩

/-- The sequence of threads dispatched by the steal/dispatch loop of
`Runtime::parse`, in order, within the given fuel. -/
def runTrace (stepF : C → Runtime C K → Runtime C K) :
    Nat → RuntimeState C K → List (Call (Continuation C K))
  | 0, _ => []
  | fuel + 1, st =>
    match st.threads.steal with
    | (none, _) => []
    | (some t, th) =>
      t :: runTrace stepF fuel
        (stepF t.callee.code
          { state := { st with threads := th }
            current := t.callee.code
            saved := t.callee.saved
            result := t.callee.result
            remaining := t.range }).state

/-- A step table that performs no driver operation (every thread
dead-ends silently). -/
def idStep : Nat → Runtime Nat Nat → Runtime Nat Nat := fun _ rt => rt

/-- A concrete driver view used to exercise `Runtime::call`: one
continuation is already registered for the call `(5, [1,3))` and length
`1` is memoized for it. -/
def rtW1 : Runtime Nat Nat :=
  { state :=
    { threads := ⟨[], []⟩
      gss := updateFn (fun _ => []) ⟨5, ⟨1, 3⟩⟩ [⟨9, none, ⟨0, 1⟩⟩]
      memoizer := updateFn (fun _ => []) ⟨5, ⟨1, 3⟩⟩ [1] }
    current := 0
    saved := none
    result := ⟨0, 1⟩
    remaining := ⟨1, 3⟩ }

/-- A concrete driver view used to exercise `Runtime::ret`: the enclosing
call `(3, [0,3))` has one registered return continuation and no memoized
length yet. -/
def rtW2 : Runtime Nat Nat :=
  { state :=
    { threads := ⟨[], []⟩
      gss := updateFn (fun _ => []) ⟨3, ⟨0, 3⟩⟩ [⟨7, none, ⟨0, 0⟩⟩]
      memoizer := fun _ => [] }
    current := 3
    saved := none
    result := ⟨0, 1⟩
    remaining := ⟨1, 3⟩ }

/-- A concrete driver view with an empty saved slot. -/
def rtW7 : Runtime Nat Nat :=
  { state := ⟨⟨[], []⟩, fun _ => [], fun _ => []⟩
    current := 0
    saved := none
    result := ⟨0, 2⟩
    remaining := ⟨2, 2⟩ }

/-- A concrete driver view with an occupied saved slot. -/
def rtW7s : Runtime Nat Nat := { rtW7 with saved := some ⟨4, ⟨0, 2⟩⟩ }

/-- A concrete driver view satisfying the range invariant
`result.stop = remaining.start`. -/
def rtW8 : Runtime Nat Nat :=
  { state := ⟨⟨[], []⟩, fun _ => [], fun _ => []⟩
    current := 0
    saved := none
    result := ⟨0, 1⟩
    remaining := ⟨1, 3⟩ }

/-- A concrete scheduler with two pending threads of different
priorities. -/
def thW4 : Threads Nat Nat :=
  ⟨[⟨⟨0, none, ⟨0, 2⟩⟩, ⟨0, 2⟩⟩, ⟨⟨1, none, ⟨1, 2⟩⟩, ⟨1, 2⟩⟩],
   [⟨⟨0, none, ⟨0, 2⟩⟩, ⟨0, 2⟩⟩, ⟨⟨1, none, ⟨1, 2⟩⟩, ⟨1, 2⟩⟩]⟩

/-- A concrete scheduler whose `seen` holds a stale dispatched thread
(range `[0,1)`) behind the only queued thread (range `[2,3)`). -/
def thW5 : Threads Nat Nat :=
  ⟨[⟨⟨1, none, ⟨2, 3⟩⟩, ⟨2, 3⟩⟩],
   [⟨⟨0, none, ⟨0, 1⟩⟩, ⟨0, 1⟩⟩, ⟨⟨1, none, ⟨2, 3⟩⟩, ⟨2, 3⟩⟩]⟩

/-- `cursor::FlattenIter` (`src/runtime.rs` lines 470-481): the outer
iterator is modelled as the list of its remaining items, `cur` as the
current inner cursor. -/
structure FlattenIter (β : Type) where
  iter : List β
  cur : β

/-- `FlattenIter::new` (`src/runtime.rs` lines 476-481): `iter.next().unwrap()`
takes the first element of the outer iterator unconditionally; the panic
on an empty iterator is modelled as `none`. -/
def FlattenIter.new {β : Type} (l : List β) : Option (FlattenIter β) :=
  match l with
  | [] => none
  | x :: xs => some ⟨xs, x⟩

/-! ## Order correspondence lemmas

The computable comparisons `rangeCmp`, `contCmp`, `callCmp` mirror the
source's `Ord` implementations; the lemmas below identify them with key
functions into lexicographic orders, from which totality, transitivity and
antisymmetry follow. -/

theorem cmpKey_cmpOf {α : Type} [LinearOrder α] : CmpKey (cmpOf (α := α)) id := by
  intro a b
  unfold cmpOf
  rcases lt_trichotomy a b with h | h | h
  · simp [h, ne_of_lt h]
  · subst h
    simp
  · simp [not_lt_of_gt h, (ne_of_gt h).symm, h]

theorem CmpKey.gt_iff {α κ : Type} [LinearOrder κ] {f : α → α → Ordering} {k : α → κ}
    (h : CmpKey f k) (a b : α) : f a b = .gt ↔ k b < k a := by
  rcases h a b with ⟨hlt, heq⟩
  constructor
  · intro hg
    rcases lt_trichotomy (k a) (k b) with h1 | h1 | h1
    · rw [← hlt] at h1
      simp [hg] at h1
    · rw [← heq] at h1
      simp [hg] at h1
    · exact h1
  · intro h1
    cases hf : f a b with
    | lt => exact absurd (hlt.mp hf) (asymm h1)
    | eq => exact absurd (heq.mp hf) (ne_of_gt h1)
    | gt => rfl

theorem CmpKey.not_gt_iff {α κ : Type} [LinearOrder κ] {f : α → α → Ordering} {k : α → κ}
    (h : CmpKey f k) (a b : α) : f a b ≠ .gt ↔ k a ≤ k b := by
  simp only [ne_eq, h.gt_iff a b]
  exact not_lt

theorem cmpKey_comap {α β κ : Type} [LinearOrder κ] {f : α → α → Ordering} {k : α → κ}
    (hf : CmpKey f k) (p : β → α) :
    CmpKey (fun a b => f (p a) (p b)) (fun a => k (p a)) :=
  fun a b => hf (p a) (p b)

theorem cmpKey_swap {α κ : Type} [LinearOrder κ] {f : α → α → Ordering} {k : α → κ}
    (hf : CmpKey f k) :
    CmpKey (fun a b => f b a) (fun a => OrderDual.toDual (k a)) := by
  intro a b
  rcases hf b a with ⟨hlt, heq⟩
  constructor
  · rw [hlt]
    exact (OrderDual.toDual_lt_toDual).symm
  · rw [heq]
    constructor
    · intro h
      exact congrArg OrderDual.toDual h.symm
    · intro h
      exact (OrderDual.toDual_inj.mp h).symm

theorem cmpKey_then {α κ₁ κ₂ : Type} [LinearOrder κ₁] [LinearOrder κ₂]
    {f g : α → α → Ordering} {kf : α → κ₁} {kg : α → κ₂}
    (hf : CmpKey f kf) (hg : CmpKey g kg) :
    CmpKey (fun a b => (f a b).then (g a b)) (fun a => toLex (kf a, kg a)) := by
  intro a b
  show ((f a b).then (g a b) = .lt ↔ _) ∧ ((f a b).then (g a b) = .eq ↔ _)
  have hflt := (hf a b).1
  have hfeq := (hf a b).2
  have hglt := (hg a b).1
  have hgeq := (hg a b).2
  have hfgt := hf.gt_iff a b
  constructor
  · rw [Prod.Lex.lt_iff]
    cases hfab : f a b with
    | lt =>
      simp only [Ordering.then]
      simpa using Or.inl (hflt.mp hfab)
    | eq =>
      have hk : kf a = kf b := hfeq.mp hfab
      simp only [Ordering.then]
      rw [hglt]
      constructor
      · intro h
        exact Or.inr ⟨hk, h⟩
      · rintro (h | ⟨-, h⟩)
        · exact absurd h (by simp [hk])
        · exact h
    | gt =>
      have hk : kf b < kf a := hfgt.mp hfab
      simp only [Ordering.then]
      constructor
      · intro h
        simp at h
      · rintro (h | ⟨h, -⟩)
        · exact absurd h (asymm hk)
        · exact absurd h (ne_of_gt hk)
  · rw [toLex_inj, Prod.mk.injEq]
    cases hfab : f a b with
    | lt =>
      have hk : kf a < kf b := hflt.mp hfab
      simp only [Ordering.then]
      constructor
      · intro h
        simp at h
      · rintro ⟨h, -⟩
        exact absurd h (ne_of_lt hk)
    | eq =>
      have hk : kf a = kf b := hfeq.mp hfab
      simp only [Ordering.then]
      rw [hgeq]
      constructor
      · intro h
        exact ⟨hk, h⟩
      · rintro ⟨-, h⟩
        exact h
    | gt =>
      have hk : kf b < kf a := hfgt.mp hfab
      simp only [Ordering.then]
      constructor
      · intro h
        simp at h
      · rintro ⟨h, -⟩
        exact absurd h (ne_of_gt hk)

theorem cmpKey_opt {α κ : Type} [LinearOrder κ] {f : α → α → Ordering} {k : α → κ}
    (hf : CmpKey f k) : CmpKey (optCmp f) (optKey k) := by
  intro a b
  cases a with
  | none =>
    cases b with
    | none => simp [optCmp, optKey]
    | some b => simp [optCmp, optKey, WithBot.bot_lt_coe, (WithBot.bot_ne_coe (a := k b))]
  | some a =>
    cases b with
    | none =>
      constructor
      · constructor
        · intro h
          simp [optCmp] at h
        · intro h
          exact absurd h (by simp [optKey, not_lt_bot])
      · constructor
        · intro h
          simp [optCmp] at h
        · intro h
          exact absurd h (by simp [optKey, WithBot.coe_ne_bot])
    | some b =>
      rcases hf a b with ⟨hlt, heq⟩
      constructor
      · simpa [optCmp, optKey, WithBot.coe_lt_coe] using hlt
      · simpa [optCmp, optKey, WithBot.coe_inj] using heq

theorem cmpKey_range : CmpKey rangeCmp rangeKey :=
  cmpKey_then (cmpKey_comap cmpKey_cmpOf Range.start) (cmpKey_comap cmpKey_cmpOf Range.stop)

theorem cmpKey_node {K : Type} [LinearOrder K] :
    CmpKey (nodeCmp (K := K)) nodeKey :=
  cmpKey_then (cmpKey_comap cmpKey_cmpOf Node.kind) (cmpKey_comap cmpKey_range Node.range)

theorem cmpKey_cont {C K : Type} [LinearOrder C] [LinearOrder K] :
    CmpKey (contCmp (C := C) (K := K)) contKey :=
  cmpKey_then (cmpKey_comap cmpKey_cmpOf Continuation.code)
    (cmpKey_then (cmpKey_comap (cmpKey_opt cmpKey_node) Continuation.saved)
      (cmpKey_comap cmpKey_range Continuation.result))

theorem cmpKey_call {C K : Type} [LinearOrder C] [LinearOrder K] :
    CmpKey (callCmp (C := C) (K := K)) callKey :=
  cmpKey_then (cmpKey_swap (cmpKey_comap cmpKey_range Call.range))
    (cmpKey_comap cmpKey_cont Call.callee)

/-! ## Maximum-of-list lemmas -/

theorem foldlMax_mem {α : Type} (f : α → α → Ordering) (xs : List α) (acc : α) :
    xs.foldl (fun a y => if f a y = .lt then y else a) acc = acc ∨
      xs.foldl (fun a y => if f a y = .lt then y else a) acc ∈ xs := by
  induction xs generalizing acc with
  | nil => exact Or.inl rfl
  | cons y ys ih =>
    simp only [List.foldl_cons]
    rcases ih (if f acc y = .lt then y else acc) with h | h
    · rw [h]
      by_cases hc : f acc y = .lt
      · simp [hc]
      · simp [hc]
    · exact Or.inr (List.mem_cons_of_mem y h)

theorem foldlMax_le {α κ : Type} [LinearOrder κ] {f : α → α → Ordering} {k : α → κ}
    (hk : CmpKey f k) (xs : List α) (acc : α) :
    k acc ≤ k (xs.foldl (fun a y => if f a y = .lt then y else a) acc) ∧
      ∀ u ∈ xs, k u ≤ k (xs.foldl (fun a y => if f a y = .lt then y else a) acc) := by
  induction xs generalizing acc with
  | nil => exact ⟨le_refl _, by simp⟩
  | cons y ys ih =>
    simp only [List.foldl_cons]
    have hstep : k acc ≤ k (if f acc y = .lt then y else acc) ∧
        k y ≤ k (if f acc y = .lt then y else acc) := by
      by_cases hc : f acc y = .lt
      · simp only [hc, if_pos]
        exact ⟨le_of_lt ((hk acc y).1.mp hc), le_refl _⟩
      · simp only [hc, if_neg, if_false]
        refine ⟨le_refl _, ?_⟩
        rcases lt_trichotomy (k y) (k acc) with h | h | h
        · exact le_of_lt h
        · exact le_of_eq h
        · exact absurd ((hk acc y).1.mpr h) hc
    rcases ih (if f acc y = .lt then y else acc) with ⟨h1, h2⟩
    refine ⟨le_trans hstep.1 h1, ?_⟩
    intro u hu
    rcases List.mem_cons.mp hu with h | h
    · subst h
      exact le_trans hstep.2 h1
    · exact h2 u h

theorem maxBy_mem {α : Type} {f : α → α → Ordering} {l : List α} {m : α}
    (h : maxBy f l = some m) : m ∈ l := by
  cases l with
  | nil => simp [maxBy] at h
  | cons x xs =>
    simp only [maxBy, Option.some.injEq] at h
    rcases foldlMax_mem f xs x with h1 | h1
    · rw [← h, h1]
      exact List.mem_cons_self x xs
    · rw [← h]
      exact List.mem_cons_of_mem x h1

theorem maxBy_le {α κ : Type} [LinearOrder κ] {f : α → α → Ordering} {k : α → κ}
    (hk : CmpKey f k) {l : List α} {m : α} (h : maxBy f l = some m) :
    ∀ u ∈ l, k u ≤ k m := by
  cases l with
  | nil => simp [maxBy] at h
  | cons x xs =>
    simp only [maxBy, Option.some.injEq] at h
    intro u hu
    rcases List.mem_cons.mp hu with h1 | h1
    · subst h1
      rw [← h]
      exact (foldlMax_le hk xs u).1
    · rw [← h]
      exact (foldlMax_le hk xs x).2 u h1

theorem maxBy_eq_none {α : Type} {f : α → α → Ordering} {l : List α} :
    maxBy f l = none ↔ l = [] := by
  cases l <;> simp [maxBy]

/-! ## Injectivity of the priority keys -/

theorem rangeKey_inj : Function.Injective rangeKey := by
  intro a b h
  unfold rangeKey at h
  rw [toLex_inj, Prod.mk.injEq] at h
  cases a
  cases b
  simp_all

theorem nodeKey_inj {K : Type} [LinearOrder K] :
    Function.Injective (nodeKey (K := K)) := by
  intro a b h
  unfold nodeKey at h
  rw [toLex_inj, Prod.mk.injEq] at h
  cases a
  cases b
  simp only [Node.mk.injEq]
  exact ⟨h.1, rangeKey_inj h.2⟩

theorem savedKey_inj {K : Type} [LinearOrder K] :
    Function.Injective (savedKey (K := K)) := by
  intro a b h
  cases a with
  | none =>
    cases b with
    | none => rfl
    | some b =>
      exact absurd h.symm (by simp [savedKey, optKey, WithBot.coe_ne_bot])
  | some a =>
    cases b with
    | none => exact absurd h (by simp [savedKey, optKey, WithBot.coe_ne_bot])
    | some b =>
      simp only [savedKey, optKey, WithBot.coe_inj] at h
      rw [nodeKey_inj h]

theorem contKey_inj {C K : Type} [LinearOrder C] [LinearOrder K] :
    Function.Injective (contKey (C := C) (K := K)) := by
  intro a b h
  unfold contKey at h
  rw [toLex_inj, Prod.mk.injEq] at h
  rcases h with ⟨h1, h2⟩
  rw [toLex_inj, Prod.mk.injEq] at h2
  cases a
  cases b
  simp only [Continuation.mk.injEq]
  exact ⟨h1, savedKey_inj h2.1, rangeKey_inj h2.2⟩

theorem callKey_inj {C K : Type} [LinearOrder C] [LinearOrder K] :
    Function.Injective (callKey (C := C) (K := K)) := by
  intro a b h
  unfold callKey at h
  rw [toLex_inj, Prod.mk.injEq] at h
  cases a
  cases b
  simp only [Call.mk.injEq]
  exact ⟨contKey_inj h.2, rangeKey_inj (OrderDual.toDual_inj.mp h.1)⟩

/-! ## Basic facts about ranges, map updates and `Threads::spawn` -/

theorem join_unwrap_of_adjacent (a b : Range) (h : a.stop = b.start) :
    a.join_unwrap b = ⟨a.start, b.stop⟩ := by
  simp [Range.join_unwrap, Range.join, h]

theorem updateFn_same {α β : Type} [DecidableEq α] (f : α → β) (a : α) (b : β) :
    updateFn f a b a = b := by
  simp [updateFn]

theorem updateFn_ne {α β : Type} [DecidableEq α] {f : α → β} {a x : α} {b : β}
    (h : x ≠ a) : updateFn f a b x = f x := by
  simp [updateFn, h]

theorem spawn_queue_mem {th : Threads C K} {n : Continuation C K} {r : Range}
    {p : Call (Continuation C K)} (h : p ∈ (th.spawn n r).queue) :
    p ∈ th.queue ∨ p = ⟨n, r⟩ := by
  unfold Threads.spawn at h
  by_cases hs : (⟨n, r⟩ : Call (Continuation C K)) ∈ th.seen
  · rw [if_pos hs] at h
    exact Or.inl h
  · rw [if_neg hs] at h
    rcases List.mem_cons.mp h with h1 | h1
    · exact Or.inr h1
    · exact Or.inl h1

theorem spawn_seen_mem {th : Threads C K} {n : Continuation C K} {r : Range}
    {p : Call (Continuation C K)} (h : p ∈ (th.spawn n r).seen) :
    p ∈ th.seen ∨ p = ⟨n, r⟩ := by
  unfold Threads.spawn at h
  by_cases hs : (⟨n, r⟩ : Call (Continuation C K)) ∈ th.seen
  · rw [if_pos hs] at h
    exact Or.inl h
  · rw [if_neg hs] at h
    rcases List.mem_cons.mp h with h1 | h1
    · exact Or.inr h1
    · exact Or.inl h1

theorem foldl_spawn_queue_mem {α : Type} (Fc : α → Continuation C K) (Fr : α → Range) :
    ∀ (l : List α) (th : Threads C K) (p : Call (Continuation C K)),
      p ∈ (l.foldl (fun th x => th.spawn (Fc x) (Fr x)) th).queue →
        p ∈ th.queue ∨ ∃ x ∈ l, p = ⟨Fc x, Fr x⟩ := by
  intro l
  induction l with
  | nil =>
    intro th p h
    exact Or.inl h
  | cons y ys ih =>
    intro th p h
    simp only [List.foldl_cons] at h
    rcases ih (th.spawn (Fc y) (Fr y)) p h with h1 | ⟨x, hx, h1⟩
    · rcases spawn_queue_mem h1 with h2 | h2
      · exact Or.inl h2
      · exact Or.inr ⟨y, List.mem_cons_self y ys, h2⟩
    · exact Or.inr ⟨x, List.mem_cons_of_mem y hx, h1⟩

/-! ## The garbage-collection loop of `Threads::steal` -/

theorem gcSeenAux_subset (r : Range) :
    ∀ (fuel : Nat) (seen : List (Call (Continuation C K))) (x : Call (Continuation C K)),
      x ∈ gcSeenAux r fuel seen → x ∈ seen := by
  intro fuel
  induction fuel with
  | zero =>
    intro seen x h
    simpa [gcSeenAux] using h
  | succ n ih =>
    intro seen x h
    rw [gcSeenAux] at h
    cases hm : maxBy callCmp seen with
    | none =>
      rw [hm] at h
      simpa using h
    | some old =>
      rw [hm] at h
      by_cases hc : (r.contains old.range.start).isSome
      · simpa [hc] using h
      · simp only [hc, if_false, Bool.false_eq_true] at h
        exact List.mem_of_mem_erase (ih _ x h)

theorem gcSeen_subset (r : Range) (seen : List (Call (Continuation C K)))
    (x : Call (Continuation C K)) (h : x ∈ gcSeen r seen) : x ∈ seen :=
  gcSeenAux_subset r seen.length seen x h

theorem gcSeenAux_removed (r : Range) :
    ∀ (fuel : Nat) (seen : List (Call (Continuation C K))) (x : Call (Continuation C K)),
      x ∈ seen → x ∉ gcSeenAux r fuel seen →
        (r.contains x.range.start).isSome = false := by
  intro fuel
  induction fuel with
  | zero =>
    intro seen x hx h
    rw [gcSeenAux] at h
    exact absurd hx h
  | succ n ih =>
    intro seen x hx h
    rw [gcSeenAux] at h
    cases hm : maxBy callCmp seen with
    | none =>
      rw [hm] at h
      exact absurd hx h
    | some old =>
      rw [hm] at h
      by_cases hc : (r.contains old.range.start).isSome
      · simp only [hc, if_true] at h
        exact absurd hx h
      · simp only [hc, if_false, Bool.false_eq_true] at h
        by_cases hxo : x = old
        · subst hxo
          cases hb : (r.contains x.range.start).isSome
          · rfl
          · exact absurd hb hc
        · exact ih _ x ((List.mem_erase_of_ne hxo).mpr hx) h

theorem gcSeen_removed (r : Range) (seen : List (Call (Continuation C K)))
    (x : Call (Continuation C K)) (hx : x ∈ seen) (h : x ∉ gcSeen r seen) :
    (r.contains x.range.start).isSome = false :=
  gcSeenAux_removed r seen.length seen x hx h

theorem gcSeenAux_max_contained (r : Range) :
    ∀ (fuel : Nat) (seen : List (Call (Continuation C K))), seen.length ≤ fuel →
      ∀ m, maxBy callCmp (gcSeenAux r fuel seen) = some m →
        (r.contains m.range.start).isSome = true := by
  intro fuel
  induction fuel with
  | zero =>
    intro seen hlen m hm
    rw [List.length_eq_zero.mp (Nat.le_zero.mp hlen)] at hm
    rw [gcSeenAux] at hm
    simp [maxBy] at hm
  | succ n ih =>
    intro seen hlen m hm
    rw [gcSeenAux] at hm
    cases hmx : maxBy callCmp seen with
    | none =>
      rw [hmx] at hm
      rw [maxBy_eq_none.mp hmx] at hm
      simp [maxBy] at hm
    | some old =>
      rw [hmx] at hm
      by_cases hc : (r.contains old.range.start).isSome
      · simp only [hc, if_true] at hm
        rw [hmx] at hm
        cases hm
        exact hc
      · simp only [hc, if_false, Bool.false_eq_true] at hm
        have hmem : old ∈ seen := maxBy_mem hmx
        have hlen' : (seen.erase old).length ≤ n := by
          have := List.length_erase_add_one hmem
          omega
        exact ih (seen.erase old) hlen' m hm

theorem gcSeen_max_contained (r : Range) (seen : List (Call (Continuation C K)))
    (m : Call (Continuation C K)) (hm : maxBy callCmp (gcSeen r seen) = some m) :
    (r.contains m.range.start).isSome = true :=
  gcSeenAux_max_contained r seen.length seen (le_refl _) m hm

theorem gcSeenAux_succ_none {r : Range} {n : Nat} {seen : List (Call (Continuation C K))}
    (hm : maxBy callCmp seen = none) : gcSeenAux r (n + 1) seen = seen := by
  rw [gcSeenAux, hm]

theorem gcSeenAux_succ_stop {r : Range} {n : Nat} {seen : List (Call (Continuation C K))}
    {old : Call (Continuation C K)} (hm : maxBy callCmp seen = some old)
    (hc : (r.contains old.range.start).isSome = true) :
    gcSeenAux r (n + 1) seen = seen := by
  rw [gcSeenAux, hm]
  simp [hc]

theorem gcSeenAux_succ_go {r : Range} {n : Nat} {seen : List (Call (Continuation C K))}
    {old : Call (Continuation C K)} (hm : maxBy callCmp seen = some old)
    (hc : ¬(r.contains old.range.start).isSome = true) :
    gcSeenAux r (n + 1) seen = gcSeenAux r n (seen.erase old) := by
  rw [gcSeenAux, hm]
  simp [hc]

theorem gcSeenAux_downward (r : Range) :
    ∀ (fuel : Nat) (seen : List (Call (Continuation C K))), seen.Nodup →
      ∀ x y, x ∈ gcSeenAux r fuel seen → y ∈ seen → callKey y ≤ callKey x →
        y ∈ gcSeenAux r fuel seen := by
  intro fuel
  induction fuel with
  | zero =>
    intro seen _ x y _ hy _
    rw [gcSeenAux]
    exact hy
  | succ n ih =>
    intro seen hnd x y hx hy hle
    cases hmx : maxBy callCmp seen with
    | none =>
      rw [gcSeenAux_succ_none hmx]
      exact hy
    | some old =>
      by_cases hc : (r.contains old.range.start).isSome
      · rw [gcSeenAux_succ_stop hmx hc]
        exact hy
      · rw [gcSeenAux_succ_go hmx hc] at hx ⊢
        by_cases hyo : y = old
        · subst hyo
          have hxe : x ∈ seen.erase y := gcSeenAux_subset r n _ x hx
          have hxy : callKey x ≤ callKey y :=
            maxBy_le cmpKey_call hmx x (List.mem_of_mem_erase hxe)
          have : x = y := callKey_inj (le_antisymm hxy hle)
          subst this
          exact absurd hxe (by simp [hnd.mem_erase_iff])
        · exact ih _ (hnd.erase old) x y hx ((List.mem_erase_of_ne hyo).mpr hy) hle

theorem gcSeen_downward (r : Range) (seen : List (Call (Continuation C K)))
    (hnd : seen.Nodup) (x y : Call (Continuation C K)) (hx : x ∈ gcSeen r seen)
    (hy : y ∈ seen) (hle : callKey y ≤ callKey x) : y ∈ gcSeen r seen :=
  gcSeenAux_downward r seen.length seen hnd x y hx hy hle

theorem gcSeenAux_noop (r : Range) :
    ∀ (fuel : Nat) (seen : List (Call (Continuation C K))),
      (∀ x ∈ seen, (r.contains x.range.start).isSome = true) →
        gcSeenAux r fuel seen = seen := by
  intro fuel
  induction fuel with
  | zero =>
    intro seen _
    rw [gcSeenAux]
  | succ n _ =>
    intro seen hall
    cases hmx : maxBy callCmp seen with
    | none => exact gcSeenAux_succ_none hmx
    | some old => exact gcSeenAux_succ_stop hmx (hall old (maxBy_mem hmx))

/-! ## Equations for `Threads::steal` -/

theorem steal_of_empty {th : Threads C K} (h : th.queue = []) :
    th.steal = (none, { queue := th.queue, seen := [] }) := by
  unfold Threads.steal
  rw [show maxBy callCmp th.queue = none from by rw [h]; rfl]

theorem steal_of_max {th : Threads C K} {t : Call (Continuation C K)}
    (h : maxBy callCmp th.queue = some t) :
    th.steal = (some t, { queue := th.queue.erase t, seen := gcSeen t.range th.seen }) := by
  unfold Threads.steal
  rw [h]

theorem steal_some_inv {th th' : Threads C K} {t : Call (Continuation C K)}
    (h : th.steal = (some t, th')) :
    maxBy callCmp th.queue = some t ∧
      th' = { queue := th.queue.erase t, seen := gcSeen t.range th.seen } := by
  unfold Threads.steal at h
  cases hm : maxBy callCmp th.queue with
  | none =>
    rw [hm] at h
    simp at h
  | some u =>
    rw [hm] at h
    injection h with h1 h2
    injection h1 with h1
    subst h1
    exact ⟨rfl, h2.symm⟩

theorem steal_some_max {th th' : Threads C K} {t : Call (Continuation C K)}
    (h : th.steal = (some t, th')) : maxBy callCmp th.queue = some t :=
  (steal_some_inv h).1

/-! ## Termination of the driver loop under spawn-bounded steps -/

theorem spawn_measure_inv
    {U : Finset (Call (Continuation C K))} {th : Threads C K}
    {p : Call (Continuation C K)} (hU : p ∈ U) (hinv : ThreadsInv U th) :
    ThreadsInv U (th.spawn p.callee p.range) ∧
      threadMeasure U (th.spawn p.callee p.range) ≤ threadMeasure U th := by
  obtain ⟨hnd, hseen, hqueue⟩ := hinv
  have hp : (⟨p.callee, p.range⟩ : Call (Continuation C K)) = p := rfl
  unfold Threads.spawn
  rw [hp]
  by_cases hs : p ∈ th.seen
  · rw [if_pos hs]
    exact ⟨⟨hnd, hseen, hqueue⟩, le_refl _⟩
  · rw [if_neg hs]
    constructor
    · refine ⟨List.nodup_cons.mpr ⟨hs, hnd⟩, ?_, ?_⟩
      · intro x hx
        rcases List.mem_cons.mp hx with h1 | h1
        · subst h1
          exact hU
        · exact hseen x h1
      · intro x hx
        rcases List.mem_cons.mp hx with h1 | h1
        · subst h1
          exact List.mem_cons_self _ _
        · exact List.mem_cons_of_mem _ (hqueue x h1)
    · unfold threadMeasure
      simp only [List.toFinset_cons, List.length_cons]
      have hnotin : p ∉ th.seen.toFinset := by
        simpa [List.mem_toFinset] using hs
      rw [Finset.card_insert_of_not_mem hnotin]
      have hsub : insert p th.seen.toFinset ⊆ U := by
        intro x hx
        rcases Finset.mem_insert.mp hx with h1 | h1
        · subst h1
          exact hU
        · exact hseen x (List.mem_toFinset.mp h1)
      have hcard : th.seen.toFinset.card + 1 ≤ U.card := by
        have := Finset.card_le_card hsub
        rwa [Finset.card_insert_of_not_mem hnotin] at this
      omega

theorem spawnList_measure_inv
    {U : Finset (Call (Continuation C K))} :
    ∀ {l : List (Call (Continuation C K))}, (∀ p ∈ l, p ∈ U) →
      ∀ {th : Threads C K}, ThreadsInv U th →
        ThreadsInv U (spawnList l th) ∧
          threadMeasure U (spawnList l th) ≤ threadMeasure U th := by
  intro l
  induction l with
  | nil =>
    intro _ th hinv
    exact ⟨hinv, le_refl _⟩
  | cons p ps ih =>
    intro hl th hinv
    have hstep := spawn_measure_inv (hl p (List.mem_cons_self p ps)) hinv
    have hrest := ih (fun q hq => hl q (List.mem_cons_of_mem p hq)) hstep.1
    exact ⟨hrest.1, le_trans hrest.2 hstep.2⟩

theorem steal_decreases
    {U : Finset (Call (Continuation C K))} {th th' : Threads C K}
    {t : Call (Continuation C K)} (hSC : StartsContained U)
    (hinv : ThreadsInv U th) (h : th.steal = (some t, th')) :
    ThreadsInv U th' ∧ threadMeasure U th' < threadMeasure U th := by
  obtain ⟨hnd, hseen, hqueue⟩ := hinv
  obtain ⟨hm, hth'⟩ := steal_some_inv h
  have htq : t ∈ th.queue := maxBy_mem hm
  have hts : t ∈ th.seen := hqueue t htq
  have htU : t ∈ U := hseen t hts
  have hgc : gcSeen t.range th.seen = th.seen :=
    gcSeenAux_noop t.range th.seen.length th.seen
      (fun x hx => hSC t htU x (hseen x hx))
  subst hth'
  rw [hgc]
  constructor
  · refine ⟨hnd, hseen, ?_⟩
    intro x hx
    exact hqueue x (List.mem_of_mem_erase hx)
  · unfold threadMeasure
    dsimp only
    have := List.length_erase_add_one htq
    omega

theorem runLoop_total
    {U : Finset (Call (Continuation C K))} (hSC : StartsContained U)
    {stepF : C → Runtime C K → Runtime C K} (hstep : SpawnsFrom U stepF) :
    ∀ (fuel : Nat) (st : RuntimeState C K), ThreadsInv U st.threads →
      threadMeasure U st.threads < fuel →
        ∃ out, runLoop stepF fuel st = some out := by
  intro fuel
  induction fuel with
  | zero =>
    intro st _ hm
    omega
  | succ n ih =>
    intro st hinv hm
    rcases hsteal : st.threads.steal with ⟨o, th'⟩
    cases o with
    | none =>
      refine ⟨{ st with threads := th' }, ?_⟩
      rw [runLoop, hsteal]
    | some t =>
      rw [runLoop, hsteal]
      have hdec := steal_decreases hSC ⟨hinv.1, hinv.2.1, hinv.2.2⟩ hsteal
      obtain ⟨l, hl, hthreads⟩ := hstep t.callee.code
        { state := { st with threads := th' }
          current := t.callee.code
          saved := t.callee.saved
          result := t.callee.result
          remaining := t.range }
      have hrest := spawnList_measure_inv hl hdec.1
      rw [← hthreads] at hrest
      exact ih _ hrest.1 (by omega)

/-! ## Claim theorems -/

/-- Claim C10: `FlattenIter::new` unconditionally unwraps the first element
of the outer iterator, so it panics (modelled as `none`) on an iterator
that yields no elements, instead of producing an empty cursor; on a
non-empty iterator it stores the first element as the current cursor and
keeps the rest. -/
theorem flattenIter_new_empty_panics (β : Type) (x : β) (xs : List β) :
    FlattenIter.new ([] : List β) = none ∧
      FlattenIter.new (x :: xs) = some ⟨xs, x⟩ :=
  ⟨rfl, rfl⟩

/-- Claim C7: `Runtime::save` succeeds only when the saved slot is empty,
storing the node `(kind, result)` and clearing the accumulated result;
`Runtime::take_saved` succeeds only when the slot is set, removing and
returning it; the two violations (`save` on a full slot, `take_saved` on
an empty slot) abort the parse, modelled as `none`. -/
theorem save_take_saved_spec (rt : Runtime C K) (kind : K) :
    (rt.saved = none →
        rt.save kind = some { rt with
          saved := some ⟨kind, rt.result⟩
          result := ⟨rt.result.stop, rt.result.stop⟩ } ∧
        rt.take_saved = none) ∧
    (∀ nd, rt.saved = some nd →
        rt.save kind = none ∧
        rt.take_saved = some (nd, { rt with saved := none })) := by
  constructor
  · intro h
    unfold Runtime.save Runtime.take_saved
    rw [h]
    exact ⟨rfl, rfl⟩
  · intro nd h
    unfold Runtime.save Runtime.take_saved
    rw [h]
    exact ⟨rfl, rfl⟩

/-- Witness for claim C7 at concrete driver views: a `save` into an empty
slot succeeds and clears the result, a `save` into a full slot aborts, and
`take_saved` behaves dually. -/
theorem save_take_saved_witness :
    (rtW7.save 4 = some { rtW7 with saved := some ⟨4, ⟨0, 2⟩⟩, result := ⟨2, 2⟩ } ∧
      rtW7.take_saved = none) ∧
    (rtW7s.save 4 = none ∧
      rtW7s.take_saved = some (⟨4, ⟨0, 2⟩⟩, { rtW7s with saved := none })) :=
  ⟨(save_take_saved_spec rtW7 4).1 rfl,
   (save_take_saved_spec rtW7s 4).2 ⟨4, ⟨0, 2⟩⟩ rfl⟩

/-- Claim C4: `Threads::steal` returns a pending thread of greatest
priority — the priority order on `Call` values being descending in the
range (ranges ordered lexicographically on `(start, stop)`, reversed by
`Reverse` in the key) and then ascending in the callee continuation, as
implemented by `callCmp` — or returns `none` exactly when the queue is
empty, in which case `seen` is cleared. -/
theorem steal_returns_greatest_priority (th : Threads C K) :
    (th.steal.1 = none ↔ th.queue = []) ∧
    (th.queue = [] → th.steal = (none, { queue := th.queue, seen := [] })) ∧
    (th.steal.1 = none → th.steal.2.seen = []) ∧
    (∀ t th', th.steal = (some t, th') →
      t ∈ th.queue ∧ (∀ u ∈ th.queue, callCmp u t ≠ .gt) ∧
        th'.queue = th.queue.erase t) := by
  have hnone : th.steal.1 = none ↔ th.queue = [] := by
    constructor
    · intro h
      cases hm : maxBy callCmp th.queue with
      | none => exact maxBy_eq_none.mp hm
      | some t =>
        rw [steal_of_max hm] at h
        simp at h
    · intro h
      rw [steal_of_empty h]
  refine ⟨hnone, ?_, ?_, ?_⟩
  · intro h
    exact steal_of_empty h
  · intro h
    rw [steal_of_empty (hnone.mp h)]
  · intro t th' h
    obtain ⟨hm, hth⟩ := steal_some_inv h
    refine ⟨maxBy_mem hm, ?_, by rw [hth]⟩
    intro u hu
    exact (cmpKey_call.not_gt_iff u t).mpr (maxBy_le cmpKey_call hm u hu)

/-- Witness for claim C4: on a concrete queue of two threads the stolen
thread is the queued one of greatest priority (smaller range start pops
first under the reversed range order) and is removed from the queue. -/
theorem steal_priority_witness :
    (⟨⟨0, none, ⟨0, 2⟩⟩, ⟨0, 2⟩⟩ : Call (Continuation Nat Nat)) ∈ thW4.queue ∧
    (∀ u ∈ thW4.queue,
      callCmp u (⟨⟨0, none, ⟨0, 2⟩⟩, ⟨0, 2⟩⟩ : Call (Continuation Nat Nat)) ≠ .gt) ∧
    (thW4.steal.2).queue = thW4.queue.erase ⟨⟨0, none, ⟨0, 2⟩⟩, ⟨0, 2⟩⟩ :=
  (steal_returns_greatest_priority thW4).2.2.2 ⟨⟨0, none, ⟨0, 2⟩⟩, ⟨0, 2⟩⟩
    (thW4.steal.2) rfl

/-- Claim C5: on a successful pop, the `seen` garbage collection
repeatedly inspects the greatest remaining entry of `seen` (the
lexicographically-largest entry in the scheduler's order) and removes it
while the stolen range does not contain that entry's range start (only the
start point is ever tested); it stops at the first greatest entry whose
start is contained, so every removed entry failed the start test, the
surviving maximum passes it, and every entry below a surviving entry
survives untouched. -/
theorem steal_gc_spec (th : Threads C K) (t : Call (Continuation C K))
    (th' : Threads C K) (h : th.steal = (some t, th')) (hnd : th.seen.Nodup) :
    th'.seen = gcSeen t.range th.seen ∧
    (∀ x ∈ th'.seen, x ∈ th.seen) ∧
    (∀ x ∈ th.seen, x ∉ th'.seen → (t.range.contains x.range.start).isSome = false) ∧
    (∀ m, maxBy callCmp th'.seen = some m →
      (t.range.contains m.range.start).isSome = true) ∧
    (∀ x y, x ∈ th'.seen → y ∈ th.seen → callKey y ≤ callKey x → y ∈ th'.seen) := by
  obtain ⟨hm, hth⟩ := steal_some_inv h
  subst hth
  dsimp only
  exact ⟨rfl,
    fun x hx => gcSeen_subset t.range th.seen x hx,
    fun x hx hnx => gcSeen_removed t.range th.seen x hx hnx,
    fun m hm' => gcSeen_max_contained t.range th.seen m hm',
    fun x y hx hy hle => gcSeen_downward t.range th.seen hnd x y hx hy hle⟩

/-- Witness for claim C5: stealing the only queued thread (range `[2,3)`)
garbage-collects the stale seen entry at range `[0,1)`, whose start `0` is
not contained in `[2,3)`, and leaves the stolen thread's own entry. -/
theorem steal_gc_witness :
    (thW5.steal.2).seen = gcSeen (⟨2, 3⟩ : Range) thW5.seen :=
  (steal_gc_spec thW5 ⟨⟨1, none, ⟨2, 3⟩⟩, ⟨2, 3⟩⟩ (thW5.steal.2) rfl (by decide)).1

/-- Claim C3, counterexample: the claim's "no-op iff the exact pair was
ever enqueued earlier in the current parse" fails on the code because
`Threads::steal` garbage-collects `seen`.  In the parse of the step table
`cycleStep` on the empty input, the entry pair `cex0` is enqueued by the
initial spawn; the first steal dispatches it and (its empty range
containing no point, not even its own start) removes it from `seen`;
re-spawning the identical pair is then not a no-op — the queue grows
again — and the dispatch trace of the first three loop iterations
dispatches `cex0` twice within one parse. -/
theorem spawn_dedup_counterexample :
    cex0 ∈ (initState 0 ⟨0, 0⟩ : RuntimeState Nat Nat).threads.queue ∧
    ((initState 0 ⟨0, 0⟩ : RuntimeState Nat Nat).threads.steal.2.spawn
        cex0.callee cex0.range).queue = [cex0] ∧
    ((initState 0 ⟨0, 0⟩ : RuntimeState Nat Nat).threads.steal.2).queue = [] ∧
    runTrace cycleStep 3 (initState 0 ⟨0, 0⟩) = [cex0, cex1, cex0] := by
  decide

/-- Claim C3, amended: `Threads::spawn` is a no-op (both `queue` and
`seen` unchanged) iff the exact `(continuation, remaining_range)` pair is
currently in `seen` — that is, was enqueued earlier and not removed since
by `steal`'s garbage collection — and otherwise inserts the pair into
`seen` and pushes it onto `queue`; consequently a pair is never dispatched
twice while it remains in `seen`, but a pair that `steal` has
garbage-collected from `seen` can be re-enqueued and re-dispatched. -/
theorem spawn_dedup_amended (th : Threads C K) (n : Continuation C K) (r : Range) :
    ((⟨n, r⟩ : Call (Continuation C K)) ∈ th.seen → th.spawn n r = th) ∧
    ((⟨n, r⟩ : Call (Continuation C K)) ∉ th.seen →
      (th.spawn n r).queue = ⟨n, r⟩ :: th.queue ∧
      (th.spawn n r).seen = ⟨n, r⟩ :: th.seen) := by
  constructor
  · intro h
    unfold Threads.spawn
    rw [if_pos h]
  · intro h
    unfold Threads.spawn
    rw [if_neg h]
    exact ⟨rfl, rfl⟩

/-- Witness for the amended claim C3: spawning a pair not in `seen` pushes
it onto the queue, and spawning it again (now in `seen`) is a no-op. -/
theorem spawn_dedup_amended_witness :
    ((⟨[], []⟩ : Threads Nat Nat).spawn ⟨0, none, ⟨0, 0⟩⟩ ⟨0, 0⟩).queue = [cex0] ∧
    (((⟨[], []⟩ : Threads Nat Nat).spawn ⟨0, none, ⟨0, 0⟩⟩ ⟨0, 0⟩).spawn
        ⟨0, none, ⟨0, 0⟩⟩ ⟨0, 0⟩) =
      (⟨[], []⟩ : Threads Nat Nat).spawn ⟨0, none, ⟨0, 0⟩⟩ ⟨0, 0⟩ :=
  ⟨((spawn_dedup_amended ⟨[], []⟩ ⟨0, none, ⟨0, 0⟩⟩ ⟨0, 0⟩).2 (by decide)).1,
    (spawn_dedup_amended ((⟨[], []⟩ : Threads Nat Nat).spawn ⟨0, none, ⟨0, 0⟩⟩ ⟨0, 0⟩)
      ⟨0, none, ⟨0, 0⟩⟩ ⟨0, 0⟩).1 (by decide)⟩

/-- Claim C1: `Runtime::call(callee, next)` with `call = (callee,
remaining)` and `nxt = (next, saved, result)`: if `nxt` is already in
`returns[call]` nothing happens (no thread is spawned, no state changes);
otherwise `nxt` is registered, and if the set already held at least one
other continuation, for every memoized length of `call` one thread is
spawned continuing `nxt` with its result extended by the accepted prefix
of that length (the callee is not re-spawned); otherwise exactly one
thread is spawned for the callee's entry: code `callee`, no saved node,
empty result at the start of `remaining`, remaining `call.range`. -/
theorem call_spec (rt : Runtime C K) (callee next : C) :
    ((⟨next, rt.saved, rt.result⟩ : Continuation C K) ∈
        rt.state.gss ⟨callee, rt.remaining⟩ →
      rt.call callee next = rt) ∧
    ((⟨next, rt.saved, rt.result⟩ : Continuation C K) ∉
        rt.state.gss ⟨callee, rt.remaining⟩ →
      rt.state.gss ⟨callee, rt.remaining⟩ ≠ [] →
      (rt.call callee next).state.threads =
        (rt.state.memoizer ⟨callee, rt.remaining⟩).foldl
          (fun th len => th.spawn
            ⟨next, rt.saved, rt.result.join_unwrap (rt.remaining.split_at len).1⟩
            (rt.remaining.split_at len).2) rt.state.threads ∧
      (rt.call callee next).state.gss =
        updateFn rt.state.gss ⟨callee, rt.remaining⟩
          (⟨next, rt.saved, rt.result⟩ :: rt.state.gss ⟨callee, rt.remaining⟩) ∧
      (rt.call callee next).state.memoizer = rt.state.memoizer) ∧
    ((⟨next, rt.saved, rt.result⟩ : Continuation C K) ∉
        rt.state.gss ⟨callee, rt.remaining⟩ →
      rt.state.gss ⟨callee, rt.remaining⟩ = [] →
      (rt.call callee next).state.threads =
        rt.state.threads.spawn ⟨callee, none, (rt.remaining.frontiers).1⟩
          rt.remaining ∧
      (rt.call callee next).state.gss =
        updateFn rt.state.gss ⟨callee, rt.remaining⟩ [⟨next, rt.saved, rt.result⟩] ∧
      (rt.call callee next).state.memoizer = rt.state.memoizer) := by
  refine ⟨?_, ?_, ?_⟩
  · intro h
    unfold Runtime.call
    rw [if_pos h]
  · intro h1 h2
    have hc : ((⟨next, rt.saved, rt.result⟩ : Continuation C K) ::
        rt.state.gss ⟨callee, rt.remaining⟩).length > 1 := by
      simp only [List.length_cons]
      have := List.length_pos.mpr h2
      omega
    unfold Runtime.call
    rw [if_neg h1, if_pos hc]
    exact ⟨rfl, rfl, rfl⟩
  · intro h1 h2
    have hc : ¬((⟨next, rt.saved, rt.result⟩ : Continuation C K) ::
        rt.state.gss ⟨callee, rt.remaining⟩).length > 1 := by
      rw [h2]
      simp
    unfold Runtime.call
    rw [if_neg h1, if_neg hc]
    rw [h2]
    exact ⟨rfl, rfl, rfl⟩

/-- Witness for claim C1 at a concrete driver view whose GSS already holds
another continuation for the call `(5, [1,3))` and whose memoizer records
length `1`: the replay branch spawns the registered lengths. -/
theorem call_spec_witness :
    (rtW1.call 5 7).state.threads =
      (rtW1.state.memoizer ⟨5, ⟨1, 3⟩⟩).foldl
        (fun th len => th.spawn
          ⟨7, none, Range.join_unwrap ⟨0, 1⟩ ((⟨1, 3⟩ : Range).split_at len).1⟩
          ((⟨1, 3⟩ : Range).split_at len).2) rtW1.state.threads :=
  ((call_spec rtW1 5 7).2.1 (by decide) (by decide)).1

/-- Claim C2: `Runtime::ret` records the current result's length in the
memoizer entry for `(enclosing_fn(current), result ⋈ remaining)`; exactly
when that length is new, one thread is spawned for each return
continuation registered in the GSS for that call, extended by the current
result with the current remaining; when the length was already recorded,
no thread is spawned and the state is unchanged. -/
theorem ret_spec (rt : Runtime C K) (encl : C → C) :
    (rt.result.len ∈
        rt.state.memoizer ⟨encl rt.current, rt.result.join_unwrap rt.remaining⟩ →
      Runtime.ret encl rt = rt) ∧
    (rt.result.len ∉
        rt.state.memoizer ⟨encl rt.current, rt.result.join_unwrap rt.remaining⟩ →
      (Runtime.ret encl rt).state.memoizer =
        updateFn rt.state.memoizer
          ⟨encl rt.current, rt.result.join_unwrap rt.remaining⟩
          (rt.result.len ::
            rt.state.memoizer ⟨encl rt.current, rt.result.join_unwrap rt.remaining⟩) ∧
      (Runtime.ret encl rt).state.threads =
        (rt.state.gss ⟨encl rt.current, rt.result.join_unwrap rt.remaining⟩).foldl
          (fun th nx => th.spawn ⟨nx.code, nx.saved, nx.result.join_unwrap rt.result⟩
            rt.remaining) rt.state.threads ∧
      (Runtime.ret encl rt).state.gss = rt.state.gss) := by
  constructor
  · intro h
    unfold Runtime.ret
    rw [if_pos h]
  · intro h
    unfold Runtime.ret
    rw [if_neg h]
    exact ⟨rfl, rfl, rfl⟩

/-- Witness for claim C2 at a concrete driver view (result `[0,1)`,
remaining `[1,3)`, enclosing call `(3, [0,3))` with one registered return
continuation and no memoized lengths): the new length `1` triggers one
fan-out spawn. -/
theorem ret_spec_witness :
    (Runtime.ret id rtW2).state.threads =
      (rtW2.state.gss ⟨3, ⟨0, 3⟩⟩).foldl
        (fun th nx => th.spawn ⟨nx.code, nx.saved, nx.result.join_unwrap ⟨0, 1⟩⟩
          ⟨1, 3⟩) rtW2.state.threads :=
  ((ret_spec rtW2 id).2 (by decide)).2.1

/-- The longest memoized result is empty exactly when no length is
recorded for the call. -/
theorem longest_result_none_iff (m : Call C → List Nat) (call : Call C) :
    longest_result m call = none ↔ m call = [] := by
  unfold longest_result
  rw [Option.map_eq_none']
  exact maxBy_eq_none

/-- A longest memoized result is the prefix of a recorded length that is
greatest among all recorded lengths. -/
theorem longest_result_some (m : Call C → List Nat) (call : Call C) (r : Range)
    (h : longest_result m call = some r) :
    ∃ len, len ∈ m call ∧ (∀ l ∈ m call, l ≤ len) ∧
      r = (call.range.split_at len).1 := by
  unfold longest_result at h
  cases hm : maxBy cmpOf (m call) with
  | none =>
    rw [hm] at h
    simp at h
  | some len =>
    rw [hm] at h
    simp only [Option.map_some'] at h
    injection h with h
    exact ⟨len, maxBy_mem hm, fun l hl => maxBy_le cmpKey_cmpOf hm l hl, h.symm⟩

/-- Claim C6: when the steal/dispatch loop drains (within the given fuel),
`Runtime::parse` returns `some` root node iff the memoizer of the final
state holds at least one accepted length for the entry call; on success
the root node has the requested kind and its range is the accepted prefix
of the greatest memoized length; on failure no root node is produced. -/
theorem parse_result_spec (stepF : C → Runtime C K → Runtime C K) (entry : C)
    (kind : K) (inputLen fuel : Nat) (st : RuntimeState C K)
    (h : runLoop stepF fuel (initState entry ⟨0, inputLen⟩) = some st) :
    (parse stepF entry kind inputLen fuel =
      some ((longest_result st.memoizer ⟨entry, ⟨0, inputLen⟩⟩).map
        fun range => ⟨kind, range⟩)) ∧
    (longest_result st.memoizer ⟨entry, ⟨0, inputLen⟩⟩ = none ↔
      st.memoizer ⟨entry, ⟨0, inputLen⟩⟩ = []) ∧
    (∀ r, longest_result st.memoizer ⟨entry, ⟨0, inputLen⟩⟩ = some r →
      ∃ len, len ∈ st.memoizer ⟨entry, ⟨0, inputLen⟩⟩ ∧
        (∀ l ∈ st.memoizer ⟨entry, ⟨0, inputLen⟩⟩, l ≤ len) ∧
        r = ((⟨entry, ⟨0, inputLen⟩⟩ : Call C).range.split_at len).1) := by
  refine ⟨?_, longest_result_none_iff _ _, fun r hr => longest_result_some _ _ r hr⟩
  unfold parse
  rw [h]
  rfl

/-- Witness for claim C6: the parse of the silent step table on the empty
input drains in two iterations with an empty memoizer, so no root node is
produced. -/
theorem parse_result_witness :
    parse idStep 0 0 0 2 =
      some ((longest_result
        (⟨⟨[], []⟩, fun _ => [], fun _ => []⟩ : RuntimeState Nat Nat).memoizer
        ⟨0, ⟨0, 0⟩⟩).map fun range => (⟨0, range⟩ : Node Nat)) :=
  (parse_result_spec idStep 0 0 0 2 ⟨⟨[], []⟩, fun _ => [], fun _ => []⟩ (by rfl)).1

/-- Claim C8: for every thread spawned during a parse the end of the
continuation's result range equals the start of the thread's remaining
range (`pairOk`): the entry thread satisfies it; and, for a driver view
whose own result/remaining satisfy it, every thread added to the queue by
`Runtime::spawn`, by either branch of `Runtime::call` (fresh callee or
memoized replay), and — given the GSS invariant `gssOk`, itself preserved
by all three operations — by `Runtime::ret`'s fan-out, satisfies it. -/
theorem spawned_threads_range_invariant (entry : C) (r0 : Range) (rt : Runtime C K)
    (callee next : C) (encl : C → C) :
    pairOk (entryPair entry r0 : Call (Continuation C K)) ∧
    (rt.result.stop = rt.remaining.start →
      (∀ p ∈ (rt.spawn next).state.threads.queue,
          p ∈ rt.state.threads.queue ∨ pairOk p) ∧
      (∀ p ∈ (rt.call callee next).state.threads.queue,
          p ∈ rt.state.threads.queue ∨ pairOk p) ∧
      (gssOk rt.state →
        ∀ p ∈ (Runtime.ret encl rt).state.threads.queue,
          p ∈ rt.state.threads.queue ∨ pairOk p) ∧
      (gssOk rt.state →
        gssOk (rt.spawn next).state ∧ gssOk (rt.call callee next).state ∧
          gssOk (Runtime.ret encl rt).state)) := by
  constructor
  · rfl
  · intro h
    refine ⟨?_, ?_, ?_, ?_⟩
    · intro p hp
      have hq : (rt.spawn next).state.threads =
          rt.state.threads.spawn ⟨next, rt.saved, rt.result⟩ rt.remaining := rfl
      rw [hq] at hp
      rcases spawn_queue_mem hp with h1 | h1
      · exact Or.inl h1
      · right
        subst h1
        exact h
    · intro p hp
      unfold Runtime.call at hp
      by_cases hmem : (⟨next, rt.saved, rt.result⟩ : Continuation C K) ∈
          rt.state.gss ⟨callee, rt.remaining⟩
      · rw [if_pos hmem] at hp
        exact Or.inl hp
      · rw [if_neg hmem] at hp
        by_cases hlen : ((⟨next, rt.saved, rt.result⟩ : Continuation C K) ::
            rt.state.gss ⟨callee, rt.remaining⟩).length > 1
        · rw [if_pos hlen] at hp
          dsimp only at hp
          rcases foldl_spawn_queue_mem
              (fun len => ⟨next, rt.saved,
                rt.result.join_unwrap (rt.remaining.split_at len).1⟩)
              (fun len => (rt.remaining.split_at len).2) _ _ p hp with h1 | ⟨len, _, h1⟩
          · exact Or.inl h1
          · right
            subst h1
            unfold pairOk
            dsimp only
            rw [join_unwrap_of_adjacent rt.result ((rt.remaining.split_at len).1) h]
            rfl
        · rw [if_neg hlen] at hp
          dsimp only at hp
          rcases spawn_queue_mem hp with h1 | h1
          · exact Or.inl h1
          · right
            subst h1
            rfl
    · intro hg p hp
      unfold Runtime.ret at hp
      by_cases hlen : rt.result.len ∈
          rt.state.memoizer ⟨encl rt.current, rt.result.join_unwrap rt.remaining⟩
      · rw [if_pos hlen] at hp
        exact Or.inl hp
      · rw [if_neg hlen] at hp
        dsimp only at hp
        rcases foldl_spawn_queue_mem
            (fun nx : Continuation C K =>
              ⟨nx.code, nx.saved, nx.result.join_unwrap rt.result⟩)
            (fun _ => rt.remaining) _ _ p hp with h1 | ⟨nx, hnx, h1⟩
        · exact Or.inl h1
        · right
          subst h1
          have hcall : Range.join_unwrap rt.result rt.remaining =
              ⟨rt.result.start, rt.remaining.stop⟩ :=
            join_unwrap_of_adjacent rt.result rt.remaining h
          have hnxr : nx.result.stop = rt.result.start := by
            have hh := hg _ nx hnx
            rw [hcall] at hh
            exact hh
          unfold pairOk
          dsimp only
          rw [join_unwrap_of_adjacent nx.result rt.result hnxr]
          exact h
    · intro hg
      refine ⟨hg, ?_, ?_⟩
      · intro c nx hnx
        unfold Runtime.call at hnx
        by_cases hmem : (⟨next, rt.saved, rt.result⟩ : Continuation C K) ∈
            rt.state.gss ⟨callee, rt.remaining⟩
        · rw [if_pos hmem] at hnx
          exact hg c nx hnx
        · rw [if_neg hmem] at hnx
          by_cases hlen : ((⟨next, rt.saved, rt.result⟩ : Continuation C K) ::
              rt.state.gss ⟨callee, rt.remaining⟩).length > 1
          · rw [if_pos hlen] at hnx
            dsimp only at hnx
            by_cases hc : c = ⟨callee, rt.remaining⟩
            · subst hc
              rw [updateFn_same] at hnx
              rcases List.mem_cons.mp hnx with h1 | h1
              · subst h1
                exact h
              · exact hg _ nx h1
            · rw [updateFn_ne hc] at hnx
              exact hg c nx hnx
          · rw [if_neg hlen] at hnx
            dsimp only at hnx
            by_cases hc : c = ⟨callee, rt.remaining⟩
            · subst hc
              rw [updateFn_same] at hnx
              rcases List.mem_cons.mp hnx with h1 | h1
              · subst h1
                exact h
              · exact hg _ nx h1
            · rw [updateFn_ne hc] at hnx
              exact hg c nx hnx
      · intro c nx hnx
        unfold Runtime.ret at hnx
        by_cases hlen : rt.result.len ∈
            rt.state.memoizer ⟨encl rt.current, rt.result.join_unwrap rt.remaining⟩
        · rw [if_pos hlen] at hnx
          exact hg c nx hnx
        · rw [if_neg hlen] at hnx
          dsimp only at hnx
          exact hg c nx hnx

/-- Witness for claim C8 at a concrete driver view with
`result = [0,1)`, `remaining = [1,3)` and an empty GSS: the pair spawned
by `Runtime::spawn` satisfies the range invariant, and `Runtime::ret`
preserves the GSS invariant. -/
theorem spawned_threads_range_witness :
    ((⟨⟨7, none, ⟨0, 1⟩⟩, ⟨1, 3⟩⟩ : Call (Continuation Nat Nat)) ∈
        rtW8.state.threads.queue ∨
      pairOk (⟨⟨7, none, ⟨0, 1⟩⟩, ⟨1, 3⟩⟩ : Call (Continuation Nat Nat))) ∧
    gssOk (Runtime.ret id rtW8).state := by
  have hthm := spawned_threads_range_invariant 0 ⟨0, 5⟩ rtW8 5 7 id
  have hg : gssOk rtW8.state := fun c nx hnx => absurd hnx (List.not_mem_nil nx)
  exact ⟨(hthm.2 rfl).1 _ (by decide), ((hthm.2 rfl).2.2.2 hg).2.2⟩

/-- Claim C9, counterexample: `parse` need not halt, and the loop is not
bounded by the number of distinct `(continuation, remaining_range)` pairs.
With the legal `CodeStep`-style table `cycleStep` (each label's step
performs exactly one `Runtime::spawn`) on the empty input, only two
distinct pairs ever exist, yet the loop never drains: each steal of an
empty-range thread garbage-collects that very pair from `seen` (its empty
range contains no start point), so the step's re-spawn of the other pair
is never deduplicated and the two pairs are re-dispatched forever — the
loop exhausts every fuel bound. -/
theorem parse_termination_counterexample :
    ¬ ∃ (fuel : Nat) (res : Option (Node Nat)),
      parse cycleStep 0 0 0 fuel = some res := by
  have key : ∀ k, runLoop cycleStep k cexState0 = none ∧
      runLoop cycleStep k cexState1 = none := by
    intro k
    induction k with
    | zero => exact ⟨rfl, rfl⟩
    | succ n ih =>
      constructor
      · rw [show runLoop cycleStep (n + 1) cexState0 =
            runLoop cycleStep n cexState1 from rfl]
        exact ih.2
      · rw [show runLoop cycleStep (n + 1) cexState1 =
            runLoop cycleStep n cexState0 from rfl]
        exact ih.1
  rintro ⟨fuel, res, h⟩
  unfold parse at h
  have hnone : runLoop cycleStep fuel (initState 0 ⟨0, 0⟩) = none := (key fuel).1
  rw [hnone] at h
  simp at h

/-- Claim C9, amended: the steal/dispatch loop of `parse` halts — in at
most as many iterations as there are distinct pairs — provided every pair
any step spawns (and the entry pair) comes from a finite universe `U`
whose remaining ranges all contain one another's start points; under that
condition `steal`'s garbage collection removes nothing from `seen`, the
dedup is permanent, and fuel `|U| + 1` drains the queue.  (Without it, a
pair garbage-collected from `seen` may be re-spawned and re-dispatched,
and the loop need not terminate.) -/
theorem parse_termination_amended (U : Finset (Call (Continuation C K)))
    (stepF : C → Runtime C K → Runtime C K) (entry : C) (kind : K)
    (inputLen : Nat) (hSC : StartsContained U) (hstep : SpawnsFrom U stepF)
    (hentry : (entryPair entry ⟨0, inputLen⟩ : Call (Continuation C K)) ∈ U) :
    ∃ res, parse stepF entry kind inputLen (U.card + 1) = some res := by
  have hth : (initState entry ⟨0, inputLen⟩ : RuntimeState C K).threads =
      { queue := [entryPair entry ⟨0, inputLen⟩],
        seen := [entryPair entry ⟨0, inputLen⟩] } := by
    unfold initState Threads.spawn
    rw [if_neg (List.not_mem_nil _)]
    rfl
  have hinv : ThreadsInv U (initState entry ⟨0, inputLen⟩ : RuntimeState C K).threads := by
    rw [hth]
    refine ⟨List.nodup_singleton _, ?_, ?_⟩
    · intro x hx
      rw [List.mem_singleton.mp hx]
      exact hentry
    · intro x hx
      exact hx
  have hmeas : threadMeasure U (initState entry ⟨0, inputLen⟩ : RuntimeState C K).threads <
      U.card + 1 := by
    rw [hth]
    unfold threadMeasure
    dsimp only
    have h1 : 1 ≤ U.card := Finset.card_pos.mpr ⟨_, hentry⟩
    simp only [List.toFinset_cons, List.toFinset_nil, insert_emptyc_eq,
      Finset.card_singleton, List.length_cons, List.length_nil]
    omega
  obtain ⟨out, hout⟩ := runLoop_total hSC hstep (U.card + 1) _ hinv hmeas
  refine ⟨(longest_result out.memoizer ⟨entry, ⟨0, inputLen⟩⟩).map
    (fun range => ⟨kind, range⟩), ?_⟩
  unfold parse
  rw [hout]
  rfl

/-- Witness for the amended claim C9: with the silent step table (which
spawns nothing), the singleton universe of the entry pair on input `[0,1)`
(a nonempty range containing its own start), the loop drains within fuel
`|U| + 1 = 2`. -/
theorem parse_termination_amended_witness :
    ∃ res, parse idStep 0 0 1
      (({entryPair 0 ⟨0, 1⟩} : Finset (Call (Continuation Nat Nat))).card + 1) =
        some res :=
  parse_termination_amended {entryPair 0 ⟨0, 1⟩} idStep 0 0 1
    (by
      intro p hp q hq
      rw [Finset.mem_singleton] at hp hq
      subst hp
      subst hq
      decide)
    (fun code rt => ⟨[], fun p hp => absurd hp (List.not_mem_nil p), rfl⟩)
    (Finset.mem_singleton_self _)
